import Mathlib

/-!
Shallow embedding of the core of `encratite/featured` (Go): feature
construction, partition routing, regression scoring, backtest and
performance summary, as implemented in the repository's `main.go`.

Modelling conventions:
* Calendar dates are day numbers in `ℤ`; `t.AddDate(0, 0, n)` becomes `t + n`.
* `float64` values read from data files and produced by arithmetic are
  modelled exactly: every IEEE double is a rational, so finite values live in
  `ℚ` and arithmetic is exact (no rounding).  Where the code's IEEE special
  values (`NaN`, `±Inf`) are observable — `getSharpeRatio`, `getR2Score` —
  computations go through the four-point extension `FloatVal` of `ℚ`, whose
  operations follow the IEEE rules for the result classes (the model has a
  single zero, treated as IEEE `+0`).
* External library functions (`commons.Mean` is `sum/length`; `commons.StdDev`,
  `math.Sqrt`, `commons.FormatPercentage`, `fmt.Sprintf` and the fitted
  model's `Predict` are opaque) become explicit function or value parameters.
-/

namespace Featured

/-- IEEE-style value: a finite rational, one of the two infinities, or NaN. -/
inductive FloatVal where
  | fin : ℚ → FloatVal
  | pinf : FloatVal
  | ninf : FloatVal
  | nan : FloatVal
deriving DecidableEq

/-- `math.IsInf(x, 1) || math.IsInf(x, -1)`. -/
def FloatVal.isInf : FloatVal → Bool
  | .pinf => true
  | .ninf => true
  | _ => false

/-- IEEE subtraction on the result classes. -/
def FloatVal.sub : FloatVal → FloatVal → FloatVal
  | .nan, _ => .nan
  | _, .nan => .nan
  | .fin a, .fin b => .fin (a - b)
  | .fin _, .pinf => .ninf
  | .fin _, .ninf => .pinf
  | .pinf, .fin _ => .pinf
  | .ninf, .fin _ => .ninf
  | .pinf, .pinf => .nan
  | .pinf, .ninf => .pinf
  | .ninf, .pinf => .ninf
  | .ninf, .ninf => .nan

/-- IEEE multiplication on the result classes (`0 * ±Inf = NaN`). -/
def FloatVal.mul : FloatVal → FloatVal → FloatVal
  | .nan, _ => .nan
  | _, .nan => .nan
  | .fin a, .fin b => .fin (a * b)
  | .fin a, .pinf => if a = 0 then .nan else if 0 < a then .pinf else .ninf
  | .fin a, .ninf => if a = 0 then .nan else if 0 < a then .ninf else .pinf
  | .pinf, .fin b => if b = 0 then .nan else if 0 < b then .pinf else .ninf
  | .ninf, .fin b => if b = 0 then .nan else if 0 < b then .ninf else .pinf
  | .pinf, .pinf => .pinf
  | .pinf, .ninf => .ninf
  | .ninf, .pinf => .ninf
  | .ninf, .ninf => .pinf

/-- IEEE division on the result classes (`0/0 = NaN`, `x/0 = ±Inf` for
finite `x ≠ 0`, the model's zero being `+0`). -/
def FloatVal.div : FloatVal → FloatVal → FloatVal
  | .nan, _ => .nan
  | _, .nan => .nan
  | .fin a, .fin b =>
    if b = 0 then (if a = 0 then .nan else if 0 < a then .pinf else .ninf)
    else .fin (a / b)
  | .fin _, .pinf => .fin 0
  | .fin _, .ninf => .fin 0
  | .pinf, .fin b => if 0 ≤ b then .pinf else .ninf
  | .ninf, .fin b => if 0 ≤ b then .ninf else .pinf
  | _, _ => .nan

/-- `commons.Mean`: arithmetic mean `sum/length` (external library function,
exact over `ℚ`). -/
def mean (xs : List ℚ) : ℚ := xs.sum / xs.length

/-- `getRateOfChange(a, b) = a/b - 1.0`. -/
def getRateOfChange (a b : ℚ) : ℚ := a / b - 1

/-- A price series: the Go `timePriceMap` restricted to the day-granular keys
used by the feature loop, as a partial map from day number to close. -/
def PriceMap : Type := ℤ → Option ℚ

/-- The `for range 10` loop body of `getClosestRecord`, with explicit fuel:
look up `date`; on a miss retry at `date - 1`. -/
def getClosestRecordGo (m : PriceMap) : ℕ → ℤ → Option (ℤ × ℚ)
  | 0, _ => none
  | fuel + 1, date =>
    match m date with
    | some c => some (date, c)
    | none => getClosestRecordGo m fuel (date - 1)

/-- `getClosestRecord`: exact-date lookup with a backward walk bounded by 10
attempts, returning the found date together with the close. -/
def getClosestRecord (date : ℤ) (m : PriceMap) : Option (ℤ × ℚ) :=
  getClosestRecordGo m 10 date

theorem getClosestRecordGo_hit (m : PriceMap) (fuel : ℕ) (date : ℤ) (c : ℚ)
    (h : m date = some c) :
    getClosestRecordGo m (fuel + 1) date = some (date, c) := by
  simp [getClosestRecordGo, h]

theorem getClosestRecordGo_miss (m : PriceMap) (fuel : ℕ) (date : ℤ)
    (h : m date = none) :
    getClosestRecordGo m (fuel + 1) date = getClosestRecordGo m fuel (date - 1) := by
  simp [getClosestRecordGo, h]

/-- If the nearest available date below `date` is `j` steps back with
`j < fuel`, the walk finds it. -/
theorem getClosestRecordGo_gap (m : PriceMap) (p : ℚ) :
    ∀ (j fuel : ℕ) (date : ℤ), j < fuel →
      (∀ k : ℕ, k < j → m (date - k) = none) →
      m (date - j) = some p →
      getClosestRecordGo m fuel date = some (date - j, p) := by
  intro j
  induction j with
  | zero =>
    intro fuel date hlt _ hfind
    obtain ⟨fuel, rfl⟩ : ∃ n, fuel = n + 1 := ⟨fuel - 1, by omega⟩
    simpa using getClosestRecordGo_hit m fuel date p (by simpa using hfind)
  | succ j ih =>
    intro fuel date hlt hnone hfind
    obtain ⟨fuel, rfl⟩ : ∃ n, fuel = n + 1 := ⟨fuel - 1, by omega⟩
    have h0 : m date = none := by simpa using hnone 0 (by omega)
    rw [getClosestRecordGo_miss m fuel date h0]
    have := ih fuel (date - 1) (by omega)
      (fun k hk => by
        have := hnone (k + 1) (by omega)
        simpa [sub_sub, show (1 : ℤ) + k = k + 1 by ring] using this)
      (by
        have : date - 1 - (j : ℤ) = date - (j + 1 : ℕ) := by push_cast; ring
        rw [this]; exact hfind)
    rw [this]
    congr 2
    push_cast
    ring

/-- If every date within `fuel` steps back is missing, the walk misses. -/
theorem getClosestRecordGo_none (m : PriceMap) :
    ∀ (fuel : ℕ) (date : ℤ),
      (∀ k : ℕ, k < fuel → m (date - k) = none) →
      getClosestRecordGo m fuel date = none := by
  intro fuel
  induction fuel with
  | zero => intro date _; rfl
  | succ fuel ih =>
    intro date hnone
    have h0 : m date = none := by simpa using hnone 0 (by omega)
    rw [getClosestRecordGo_miss m fuel date h0]
    exact ih (date - 1) (fun k hk => by
      have := hnone (k + 1) (by omega)
      simpa [sub_sub, show (1 : ℤ) + k = k + 1 by ring] using this)

/-- Claim C1: closest-prior lookup returns the exact-date price when present;
otherwise it steps back one day at a time; with a price at `D` and none at
`D+1..D+9`, any query in `(D, D+9]` finds `(D, price)`; when nothing is
available within 9 days back of the query it reports not-found (it is a total
function: it never fabricates a value or aborts). -/
theorem getClosestRecord_spec (m : PriceMap) :
    (∀ (t : ℤ) (p : ℚ), m t = some p → getClosestRecord t m = some (t, p)) ∧
    (∀ (D t : ℤ) (p : ℚ), m D = some p →
      (∀ k ∈ Finset.Icc (1 : ℤ) 9, m (D + k) = none) →
      D < t → t ≤ D + 9 → getClosestRecord t m = some (D, p)) ∧
    (∀ t : ℤ, (∀ k ∈ Finset.Icc (0 : ℤ) 9, m (t - k) = none) →
      getClosestRecord t m = none) := by
  refine ⟨?_, ?_, ?_⟩
  · intro t p h
    exact getClosestRecordGo_hit m 9 t p h
  · intro D t p hD hgap hlt hle
    have hj : ((t - D).toNat : ℤ) = t - D := Int.toNat_of_nonneg (by omega)
    have := getClosestRecordGo_gap m p (t - D).toNat 10 t (by omega)
      (fun k hk => by
        have hk9 : (t - k) - D ∈ Finset.Icc (1 : ℤ) 9 := by
          simp only [Finset.mem_Icc]; omega
        have := hgap ((t - k) - D) hk9
        simpa [show D + ((t - k) - D) = t - k by ring] using this)
      (by rw [show t - ((t - D).toNat : ℤ) = D by omega]; exact hD)
    rw [getClosestRecord, this, show t - ((t - D).toNat : ℤ) = D by omega]
  · intro t hnone
    exact getClosestRecordGo_none m 10 t (fun k hk =>
      hnone k (by simp only [Finset.mem_Icc]; omega))

/-- Concrete price series for the lookup witness: a single price at day 0. -/
def lookupWitnessMap : PriceMap := fun d => if d = 0 then some 5 else none

theorem getClosestRecord_spec_witness :
    getClosestRecord 0 lookupWitnessMap = some (0, 5) ∧
    getClosestRecord 9 lookupWitnessMap = some (0, 5) ∧
    getClosestRecord 20 lookupWitnessMap = none := by
  refine ⟨?_, ?_, ?_⟩
  · exact (getClosestRecord_spec lookupWitnessMap).1 0 5 (by decide)
  · exact (getClosestRecord_spec lookupWitnessMap).2.1 0 9 5 (by decide)
      (by decide) (by decide) (by decide)
  · exact (getClosestRecord_spec lookupWitnessMap).2.2 20 (by decide)

/-! ### Price series construction (`loadDailyRecords`) -/

/-- A `time.Time` at day granularity with a residual time-of-day
(`tod`, in hours; in-range values satisfy `0 ≤ tod < 24`). -/
structure Timestamp where
  date : ℤ
  tod : ℤ
deriving DecidableEq

/-- One raw OHLC record as consumed by `loadDailyRecords`: timestamp and
closing price. -/
structure PriceRecord where
  ts : Timestamp
  close : ℚ
deriving DecidableEq

/-- `sessionEnd = time.Duration(21) * time.Hour`, in hours. -/
def sessionEnd : ℤ := 21

/-- `t.Before(s)` where `s` is a serialized date, i.e. a midnight
timestamp: lexicographic comparison against `(s, 0)`. -/
def tsBeforeMidnight (t : Timestamp) (s : ℤ) : Bool :=
  t.date < s || (t.date == s && decide (t.tod < 0))

/-- `startDate != nil && record.Timestamp.Before(startDate.Time)`. -/
def skipRecord (startDate : Option ℤ) (r : PriceRecord) : Bool :=
  match startDate with
  | some s => tsBeforeMidnight r.ts s
  | none => false

/-- Go map assignment `m[k] = v`: later assignments overwrite earlier ones. -/
def mapInsert (m : Timestamp → Option ℚ) (k : Timestamp) (v : ℚ) :
    Timestamp → Option ℚ :=
  fun t => if t = k then some v else m t

/-- One iteration of the `loadDailyRecords` loop: drop records before the
start date; in collapse mode keep only records whose time-of-day is the
session end, keyed by calendar date (midnight); otherwise key by the full
timestamp. -/
def loadStep (startDate : Option ℤ) (sessionEndFilter : Bool)
    (m : Timestamp → Option ℚ) (r : PriceRecord) : Timestamp → Option ℚ :=
  if skipRecord startDate r then m
  else if sessionEndFilter then
    (if r.ts.tod = sessionEnd then mapInsert m ⟨r.ts.date, 0⟩ r.close else m)
  else mapInsert m r.ts r.close

/-- `loadDailyRecords` (map-construction part): fold the per-record step over
the input records in order, starting from the empty map.  The record source
(`ohlc.MustReadBinance` / `MustReadBarchart`) is external; its output is the
`records` parameter. -/
def loadDailyRecords (startDate : Option ℤ) (sessionEndFilter : Bool)
    (records : List PriceRecord) : Timestamp → Option ℚ :=
  records.foldl (loadStep startDate sessionEndFilter) (fun _ => none)

/-- The predicate selecting input records that produce the observation stored
at key `t` in collapse mode. -/
def collapseHits (startDate : Option ℤ) (t : Timestamp) (r : PriceRecord) : Bool :=
  !skipRecord startDate r && r.ts.tod == sessionEnd &&
    decide ((⟨r.ts.date, 0⟩ : Timestamp) = t)

theorem foldl_loadStep_collapse (startDate : Option ℤ) :
    ∀ (records : List PriceRecord) (m : Timestamp → Option ℚ) (t : Timestamp),
      records.foldl (loadStep startDate true) m t =
        match records.reverse.find? (collapseHits startDate t) with
        | some r => some r.close
        | none => m t := by
  intro records
  induction records with
  | nil => intro m t; rfl
  | cons r rs ih =>
    intro m t
    rw [List.foldl_cons, ih, List.reverse_cons, List.find?_append]
    cases hfind : rs.reverse.find? (collapseHits startDate t) with
    | some r0 => simp
    | none =>
      rw [Option.none_or]
      cases hhit : collapseHits startDate t r with
      | true =>
        rw [collapseHits, Bool.and_eq_true, Bool.and_eq_true] at hhit
        obtain ⟨⟨hskip, htod⟩, hkey⟩ := hhit
        rw [Bool.not_eq_true'] at hskip
        rw [beq_iff_eq] at htod
        rw [decide_eq_true_eq] at hkey
        subst hkey
        simp [List.find?, loadStep, hskip, htod, mapInsert, collapseHits]
      | false =>
        simp only [List.find?_cons, hhit, List.find?_nil]
        by_cases hskip : skipRecord startDate r = true
        · simp [loadStep, hskip]
        · have hskip0 : skipRecord startDate r = false := by
            simpa using hskip
          by_cases htod : r.ts.tod = sessionEnd
          · have hkey : ¬ ((⟨r.ts.date, 0⟩ : Timestamp) = t) := by
              intro hc
              rw [collapseHits] at hhit
              simp [hskip0, htod, hc] at hhit
            have hstep : loadStep startDate true m r =
                mapInsert m ⟨r.ts.date, 0⟩ r.close := by
              simp [loadStep, hskip0, htod]
            rw [hstep, mapInsert]
            exact if_neg (fun hc => hkey hc.symm)
          · simp [loadStep, hskip0, htod]

/-- Claim C8: in session-close collapse mode the built series stores
observations only under midnight (pure calendar-date) keys — so no two
retained observations share a calendar date — and the price stored for date
`t.date` is the close of the last input record (input order) that is not
before the optional start date, whose time-of-day is the session end 21:00,
and whose calendar date is `t.date`; in particular every retained observation
comes from such a record, and records before the start date are excluded. -/
theorem loadDailyRecords_collapse_spec (startDate : Option ℤ)
    (records : List PriceRecord) (t : Timestamp) :
    loadDailyRecords startDate true records t =
      if t.tod = 0 then
        (records.reverse.find? (fun r => !skipRecord startDate r &&
          r.ts.tod == sessionEnd && r.ts.date == t.date)).map PriceRecord.close
      else none := by
  rw [loadDailyRecords, foldl_loadStep_collapse]
  by_cases htod : t.tod = 0
  · rw [if_pos htod]
    obtain ⟨td, tt⟩ := t
    simp only at htod
    subst htod
    have hpred : collapseHits startDate ⟨td, 0⟩ = fun r =>
        !skipRecord startDate r && r.ts.tod == sessionEnd && r.ts.date == td := by
      funext r
      rw [collapseHits]
      congr 1
      simp only [Timestamp.mk.injEq, and_true, Bool.beq_eq_decide_eq]
    rw [hpred]
    cases hfind : records.reverse.find? (fun r => !skipRecord startDate r &&
        r.ts.tod == sessionEnd && r.ts.date == td) with
    | some r0 => simp
    | none => simp
  · rw [if_neg htod]
    have hnone : records.reverse.find? (collapseHits startDate t) = none := by
      rw [List.find?_eq_none]
      intro r _ hr
      rw [collapseHits, Bool.and_eq_true, decide_eq_true_eq] at hr
      exact htod (by rw [← hr.2])
    rw [hnone]

/-! ### Feature/label construction (the date loop of `getRegressionCells`) -/

/-- The configuration fields read by the core pipeline (the Go global
`configuration` plus the compile-time constants threaded explicitly). -/
structure Config where
  startDate : ℤ
  splitDate : ℤ
  endDate : ℤ
  holdingTime : ℤ
  enableMomentum : Bool
  enableReference : Bool
  enableIndex : Bool
  enableWeekdays : Bool
  enableWeekdayFilter : Bool
  weekdayFilter : ℤ
  longThreshold : ℚ
  shortThreshold : ℚ
  riskFreeRate : ℚ

/-- `daysPerWeek = 7`. -/
def daysPerWeek : ℕ := 7

/-- The weekday one-hot block: `for j := range daysPerWeek`, slot `j` is
`1.0` exactly when `j` equals the active weekday index. -/
def oneHot (weekdayIndex : ℤ) : List ℚ :=
  (List.range daysPerWeek).map (fun j => if (j : ℤ) = weekdayIndex then 1 else 0)

/-- One iteration of the date loop of `getRegressionCells`: apply the
weekday filter, resolve the benchmark-index close via closest-prior lookup
(anchoring the prior lookup at the found index date minus one day), require
exact asset closes at the date, the prior day and the holding-time horizon,
require reference closes at the date and prior day, then build the feature
vector and the forward-return label.  Any miss yields `none` (the Go
`continue`).  `wd` is Go's `date.Weekday()` (Sunday = 0 … Saturday = 6);
`isReferenceSymbol` is `symbol == bitcoinSymbol`. -/
def processDate (cfg : Config) (wd : ℤ → ℤ) (isReferenceSymbol : Bool)
    (assetMap referenceMap indexMap : PriceMap) (date : ℤ) :
    Option (List ℚ × ℚ) :=
  let weekday := wd date
  if cfg.enableWeekdayFilter ∧ weekday ≠ cfg.weekdayFilter then none
  else
    match getClosestRecord date indexMap with
    | none => none
    | some (currentIndexCloseDate, currentIndexClose) =>
      match getClosestRecord (currentIndexCloseDate - 1) indexMap with
      | none => none
      | some (_, previousIndexClose) =>
        match assetMap date with
        | none => none
        | some currentAssetClose =>
          match assetMap (date - 1) with
          | none => none
          | some previousAssetClose =>
            match assetMap (date + cfg.holdingTime) with
            | none => none
            | some nextAssetClose =>
              match referenceMap date with
              | none => none
              | some currentReferenceClose =>
                match referenceMap (date - 1) with
                | none => none
                | some previousReferenceClose =>
                  let assetMomentum :=
                    getRateOfChange currentAssetClose previousAssetClose
                  let referenceMomentum := if isReferenceSymbol then 0
                    else getRateOfChange currentReferenceClose previousReferenceClose
                  let indexMomentum :=
                    getRateOfChange currentIndexClose previousIndexClose
                  let dailyFeatures :=
                    (if cfg.enableMomentum then [assetMomentum] else []) ++
                    (if cfg.enableReference then [referenceMomentum] else []) ++
                    (if cfg.enableIndex then [indexMomentum] else []) ++
                    (if cfg.enableWeekdays then
                      oneHot ((weekday + 6) % (daysPerWeek : ℤ)) else [])
                  let label := getRateOfChange nextAssetClose currentAssetClose
                  some (dailyFeatures, label)

/-- The partition-routing part of the date loop: each produced example is
appended to the training partition when its date is strictly before the
split date, otherwise to the test partition. -/
def routeExamples (examplesOf : ℤ → Option (List ℚ × ℚ)) (splitDate : ℤ) :
    List ℤ → List (List ℚ × ℚ) × List (List ℚ × ℚ)
  | [] => ([], [])
  | d :: ds =>
    let rest := routeExamples examplesOf splitDate ds
    match examplesOf d with
    | none => rest
    | some ex =>
      if d < splitDate then (ex :: rest.1, rest.2) else (rest.1, ex :: rest.2)

/-- The dates visited by
`for date := startDate; date.Before(endDate); date = date.AddDate(0,0,1)`. -/
def dateRange (startDate endDate : ℤ) : List ℤ :=
  (List.range (endDate - startDate).toNat).map (fun (i : ℕ) => startDate + (i : ℤ))

/-- The (training, test) example lists built by `getRegressionCells` before
model fitting. -/
def getRegressionExamples (cfg : Config) (wd : ℤ → ℤ) (isReferenceSymbol : Bool)
    (assetMap referenceMap indexMap : PriceMap) :
    List (List ℚ × ℚ) × List (List ℚ × ℚ) :=
  routeExamples
    (processDate cfg wd isReferenceSymbol assetMap referenceMap indexMap)
    cfg.splitDate (dateRange cfg.startDate cfg.endDate)

theorem routeExamples_eq (examplesOf : ℤ → Option (List ℚ × ℚ)) (splitDate : ℤ) :
    ∀ ds : List ℤ, routeExamples examplesOf splitDate ds =
      ((ds.filter (fun d => d < splitDate)).filterMap examplesOf,
       (ds.filter (fun d => !(decide (d < splitDate)))).filterMap examplesOf) := by
  intro ds
  induction ds with
  | nil => rfl
  | cons d ds ih =>
    rw [routeExamples, ih]
    by_cases hd : d < splitDate
    · cases hex : examplesOf d with
      | none => simp [List.filter_cons, List.filterMap_cons, hd, hex]
      | some ex => simp [List.filter_cons, List.filterMap_cons, hd, hex]
    · cases hex : examplesOf d with
      | none => simp [List.filter_cons, List.filterMap_cons, hd, hex]
      | some ex => simp [List.filter_cons, List.filterMap_cons, hd, hex]

theorem mem_dateRange (startDate endDate d : ℤ) :
    d ∈ dateRange startDate endDate → startDate ≤ d ∧ d < endDate := by
  intro hd
  simp only [dateRange, List.mem_map, List.mem_range] at hd
  obtain ⟨i, hi, rfl⟩ := hd
  omega

/-- When the weekday filter passes and every required lookup succeeds,
`processDate` produces exactly the concatenated feature vector and the
forward-return label. -/
theorem processDate_success (cfg : Config) (wd : ℤ → ℤ) (isRef : Bool)
    (am rm im : PriceMap) (date fd pd : ℤ) (cv pv ca pa na cr pr : ℚ)
    (hfilt : ¬(cfg.enableWeekdayFilter ∧ wd date ≠ cfg.weekdayFilter))
    (hidx : getClosestRecord date im = some (fd, cv))
    (hpidx : getClosestRecord (fd - 1) im = some (pd, pv))
    (hca : am date = some ca)
    (hpa : am (date - 1) = some pa)
    (hna : am (date + cfg.holdingTime) = some na)
    (hcr : rm date = some cr)
    (hpr : rm (date - 1) = some pr) :
    processDate cfg wd isRef am rm im date =
      some ((if cfg.enableMomentum then [getRateOfChange ca pa] else []) ++
            (if cfg.enableReference then
              [if isRef then 0 else getRateOfChange cr pr] else []) ++
            (if cfg.enableIndex then [getRateOfChange cv pv] else []) ++
            (if cfg.enableWeekdays then
              oneHot ((wd date + 6) % (daysPerWeek : ℤ)) else []),
            getRateOfChange na ca) := by
  simp only [processDate, if_neg hfilt, hidx, hpidx, hca, hpa, hna, hcr, hpr]

theorem oneHot_explicit (k : ℤ) :
    oneHot k = [if (0 : ℤ) = k then (1 : ℚ) else 0, if (1 : ℤ) = k then 1 else 0,
      if (2 : ℤ) = k then 1 else 0, if (3 : ℤ) = k then 1 else 0,
      if (4 : ℤ) = k then 1 else 0, if (5 : ℤ) = k then 1 else 0,
      if (6 : ℤ) = k then 1 else 0] := by
  rfl

theorem oneHot_count_one (k : ℤ) (h0 : 0 ≤ k) (h7 : k < 7) :
    (oneHot k).count 1 = 1 := by
  interval_cases k <;> decide

theorem oneHot_getD (k : ℤ) (j : ℕ) (hj : j < daysPerWeek) :
    (oneHot k).getD j 0 = (if (j : ℤ) = k then 1 else 0) := by
  have hj7 : j < 7 := hj
  interval_cases j <;> simp [oneHot_explicit, List.getD]

/-- Claim C4: the loop visits exactly the dates of `[startDate, endDate)`;
each produced example is routed to training when its date is strictly before
the split date and to test otherwise (so split date ≤ date < end date), each
date's example lands in exactly one of the two partitions, and no date
outside `[startDate, endDate)` contributes. -/
theorem partitionRouting_spec (cfg : Config) (wd : ℤ → ℤ) (isRef : Bool)
    (am rm im : PriceMap) :
    (getRegressionExamples cfg wd isRef am rm im =
      (((dateRange cfg.startDate cfg.endDate).filter
          (fun d => d < cfg.splitDate)).filterMap
        (processDate cfg wd isRef am rm im),
       ((dateRange cfg.startDate cfg.endDate).filter
          (fun d => !(decide (d < cfg.splitDate)))).filterMap
        (processDate cfg wd isRef am rm im))) ∧
    (∀ d ∈ dateRange cfg.startDate cfg.endDate,
      cfg.startDate ≤ d ∧ d < cfg.endDate) :=
  ⟨routeExamples_eq _ _ _, fun d hd => mem_dateRange cfg.startDate cfg.endDate d hd⟩

/-- Shared concrete fixture: configuration with all feature groups enabled,
no weekday filter, range `[0, 4)`, split at 2, holding time 1. -/
def wCfg : Config :=
  ⟨0, 2, 4, 1, true, true, true, true, false, 2, 1/100, -1/100, 0⟩

/-- Concrete benchmark-index series with gaps: prices only at days 2 and 5. -/
def wIndexMap : PriceMap :=
  fun d => if d = 5 then some 100 else if d = 2 then some 80 else none

/-- Concrete dense index series. -/
def wIndexMapDense : PriceMap := fun _ => some 4

/-- Concrete asset series: constant close 2. -/
def wAssetMap : PriceMap := fun _ => some 2

/-- Concrete reference series: constant close 3. -/
def wRefMap : PriceMap := fun _ => some 3

/-- Concrete weekday function: every day is a Wednesday (Go value 3). -/
def wWeekdayWed : ℤ → ℤ := fun _ => 3

/-- Concrete weekday function: every day is a Monday (Go value 1). -/
def wWeekdayMon : ℤ → ℤ := fun _ => 1

theorem partitionRouting_spec_witness :
    getRegressionExamples wCfg wWeekdayWed false wAssetMap wRefMap wIndexMapDense =
      ([([0, 0, 0, 0, 0, 1, 0, 0, 0, 0], 0), ([0, 0, 0, 0, 0, 1, 0, 0, 0, 0], 0)],
       [([0, 0, 0, 0, 0, 1, 0, 0, 0, 0], 0), ([0, 0, 0, 0, 0, 1, 0, 0, 0, 0], 0)]) ∧
    ((0 : ℤ) ≤ 1 ∧ (1 : ℤ) < 4) := by
  have h := partitionRouting_spec wCfg wWeekdayWed false wAssetMap wRefMap wIndexMapDense
  refine ⟨?_, h.2 1 (by decide)⟩
  rw [h.1]
  have hp : ∀ d : ℤ,
      processDate wCfg wWeekdayWed false wAssetMap wRefMap wIndexMapDense d =
        some ([0, 0, 0, 0, 0, 1, 0, 0, 0, 0], 0) := by
    intro d
    have hs := processDate_success wCfg wWeekdayWed false wAssetMap wRefMap
      wIndexMapDense d d (d - 1) 4 4 2 2 2 3 3 (by simp [wCfg]) rfl rfl rfl rfl rfl rfl rfl
    rw [hs]
    norm_num [wCfg, getRateOfChange, oneHot_explicit, wWeekdayWed, daysPerWeek]
  have hdr : dateRange wCfg.startDate wCfg.endDate = [0, 1, 2, 3] := by decide
  have hsplit : wCfg.splitDate = 2 := rfl
  rw [hdr, hsplit]
  norm_num [hp, List.filter_cons, List.filterMap_cons]

/-- Claim C6: the prior benchmark-index close is resolved by a closest-prior
lookup anchored at the date actually found for the current index close minus
one day (not the nominal calendar date minus one): when that anchored lookup
misses the date is skipped, and when it hits, the index momentum feature is
computed from its value, so consecutive index gaps chain through the
fallback. -/
theorem indexAnchor_spec (cfg : Config) (wd : ℤ → ℤ) (isRef : Bool)
    (am rm im : PriceMap) (date fd : ℤ) (cv : ℚ)
    (hfilt : ¬(cfg.enableWeekdayFilter ∧ wd date ≠ cfg.weekdayFilter))
    (hidx : getClosestRecord date im = some (fd, cv)) :
    (getClosestRecord (fd - 1) im = none →
      processDate cfg wd isRef am rm im date = none) ∧
    (∀ (pd : ℤ) (pv ca pa na cr pr : ℚ),
      getClosestRecord (fd - 1) im = some (pd, pv) →
      am date = some ca → am (date - 1) = some pa →
      am (date + cfg.holdingTime) = some na →
      rm date = some cr → rm (date - 1) = some pr →
      processDate cfg wd isRef am rm im date =
        some ((if cfg.enableMomentum then [getRateOfChange ca pa] else []) ++
              (if cfg.enableReference then
                [if isRef then 0 else getRateOfChange cr pr] else []) ++
              (if cfg.enableIndex then [getRateOfChange cv pv] else []) ++
              (if cfg.enableWeekdays then
                oneHot ((wd date + 6) % (daysPerWeek : ℤ)) else []),
              getRateOfChange na ca)) := by
  constructor
  · intro hnone
    simp only [processDate, if_neg hfilt, hidx, hnone]
  · intro pd pv ca pa na cr pr hpidx hca hpa hna hcr hpr
    exact processDate_success cfg wd isRef am rm im date fd pd cv pv ca pa na cr pr
      hfilt hidx hpidx hca hpa hna hcr hpr

theorem indexAnchor_spec_witness :
    processDate wCfg wWeekdayWed false wAssetMap wRefMap wIndexMap 7 =
      some ([0, 0, 1/4, 0, 0, 1, 0, 0, 0, 0], 0) := by
  have h := indexAnchor_spec wCfg wWeekdayWed false wAssetMap wRefMap wIndexMap
    7 5 100 (by decide) (by decide)
  refine (h.2 2 80 2 2 2 3 3 (by decide) rfl rfl rfl rfl rfl).trans ?_
  norm_num [wCfg, getRateOfChange, oneHot_explicit, wWeekdayWed, daysPerWeek]

/-- Claim C7: with weekday features enabled, a non-skipped date's feature
vector is the enabled scalar features (asset momentum, reference momentum,
index momentum, in that order) followed by the weekday one-hot block of
length 7; slot `j` of the block holds `1.0` exactly when `j` is the active
index `(weekday + 6) % 7` and `0.0` otherwise, exactly one slot holds `1.0`,
and a Monday (Go weekday 1) activates index 0. -/
theorem weekdayOneHot_spec (cfg : Config) (wd : ℤ → ℤ) (isRef : Bool)
    (am rm im : PriceMap) (date fd pd : ℤ) (cv pv ca pa na cr pr : ℚ)
    (hweek : cfg.enableWeekdays = true)
    (hfilt : ¬(cfg.enableWeekdayFilter ∧ wd date ≠ cfg.weekdayFilter))
    (hidx : getClosestRecord date im = some (fd, cv))
    (hpidx : getClosestRecord (fd - 1) im = some (pd, pv))
    (hca : am date = some ca)
    (hpa : am (date - 1) = some pa)
    (hna : am (date + cfg.holdingTime) = some na)
    (hcr : rm date = some cr)
    (hpr : rm (date - 1) = some pr) :
    (processDate cfg wd isRef am rm im date =
      some ((if cfg.enableMomentum then [getRateOfChange ca pa] else []) ++
            (if cfg.enableReference then
              [if isRef then 0 else getRateOfChange cr pr] else []) ++
            (if cfg.enableIndex then [getRateOfChange cv pv] else []) ++
            oneHot ((wd date + 6) % (daysPerWeek : ℤ)),
            getRateOfChange na ca)) ∧
    (oneHot ((wd date + 6) % (daysPerWeek : ℤ))).length = daysPerWeek ∧
    (oneHot ((wd date + 6) % (daysPerWeek : ℤ))).count 1 = 1 ∧
    (∀ j : ℕ, j < daysPerWeek →
      (oneHot ((wd date + 6) % (daysPerWeek : ℤ))).getD j 0 =
        (if (j : ℤ) = (wd date + 6) % (daysPerWeek : ℤ) then 1 else 0)) ∧
    (wd date = 1 → (wd date + 6) % (daysPerWeek : ℤ) = 0) := by
  have h7 : (daysPerWeek : ℤ) = 7 := rfl
  refine ⟨?_, ?_, ?_, ?_, ?_⟩
  · have h := processDate_success cfg wd isRef am rm im date fd pd cv pv ca pa na cr pr
      hfilt hidx hpidx hca hpa hna hcr hpr
    rw [h, hweek]
    simp
  · rw [oneHot_explicit]
    rfl
  · refine oneHot_count_one _ ?_ ?_
    · exact Int.emod_nonneg _ (by rw [h7]; norm_num)
    · rw [h7]; exact Int.emod_lt_of_pos _ (by norm_num)
  · intro j hj
    exact oneHot_getD _ j hj
  · intro hmon
    rw [hmon, h7]
    decide

theorem weekdayOneHot_spec_witness :
    processDate wCfg wWeekdayMon true wAssetMap wRefMap wIndexMapDense 3 =
      some ([0, 0, 0, 1, 0, 0, 0, 0, 0, 0], 0) ∧
    (oneHot ((wWeekdayMon 3 + 6) % (daysPerWeek : ℤ))).count 1 = 1 ∧
    (wWeekdayMon 3 + 6) % (daysPerWeek : ℤ) = 0 := by
  have h := weekdayOneHot_spec wCfg wWeekdayMon true wAssetMap wRefMap
    wIndexMapDense 3 3 2 4 4 2 2 2 3 3 rfl (by decide) (by decide) (by decide)
    rfl rfl rfl rfl rfl
  refine ⟨h.1.trans ?_, h.2.2.1, h.2.2.2.2 rfl⟩
  norm_num [wCfg, getRateOfChange, oneHot_explicit, wWeekdayMon, daysPerWeek]

/-! ### Backtest (`runBacktest`) -/

/-- The per-example loop of `runBacktest` over index-paired
(features, label) rows: a prediction strictly above the long threshold
realizes the label, a prediction strictly below the short threshold realizes
`1/(1+label) - 1`, otherwise the period is flat (`0.0`); one entry is
appended to each stream per row. -/
def runBacktestGo (cfg : Config) (predict : List ℚ → ℚ) :
    List (List ℚ × ℚ) → List ℚ × List ℚ
  | [] => ([], [])
  | row :: rows =>
    let signal := predict row.1
    let label := row.2
    let rest := runBacktestGo cfg predict rows
    ((if signal > cfg.longThreshold then label else 0) :: rest.1,
     (if signal < cfg.shortThreshold then 1 / (1 + label) - 1 else 0) :: rest.2)

/-- `runBacktest(features, labels, model)`: `model.Predict` is the opaque
`predict` parameter; the Go loop reads `labels[i]` alongside `features[i]`,
modelled by zipping the two lists. -/
def runBacktest (cfg : Config) (predict : List ℚ → ℚ)
    (features : List (List ℚ)) (labels : List ℚ) : List ℚ × List ℚ :=
  runBacktestGo cfg predict (features.zip labels)

theorem runBacktestGo_eq (cfg : Config) (predict : List ℚ → ℚ) :
    ∀ rows : List (List ℚ × ℚ),
      runBacktestGo cfg predict rows =
        (rows.map (fun row => if predict row.1 > cfg.longThreshold then row.2 else 0),
         rows.map (fun row =>
           if predict row.1 < cfg.shortThreshold then 1 / (1 + row.2) - 1 else 0)) := by
  intro rows
  induction rows with
  | nil => rfl
  | cons row rows ih => simp [runBacktestGo, ih]

theorem getD_map_zip (f : List ℚ × ℚ → ℚ) :
    ∀ (l1 : List (List ℚ)) (l2 : List ℚ) (i : ℕ), i < l1.length →
      l1.length = l2.length →
      ((l1.zip l2).map f).getD i 1 = f (l1.getD i [], l2.getD i 0) := by
  intro l1
  induction l1 with
  | nil => intro l2 i hi _; simp at hi
  | cons x l1 ih =>
    intro l2 i hi hlen
    cases l2 with
    | nil => simp at hlen
    | cons y l2 =>
      cases i with
      | zero => simp
      | succ i =>
        simp only [List.zip_cons_cons, List.map_cons, List.getD_cons_succ]
        exact ih l2 i (by simpa using hi) (by simpa using hlen)

/-- Claim C2: for aligned test features and labels, the long stream is
exactly one entry per test example in order — the label when the prediction
strictly exceeds the long threshold, else `0.0` — and the short stream is
`1/(1+label) - 1` when the prediction is strictly below the short threshold,
else `0.0`; both streams have one entry per test example, and a prediction
strictly between the thresholds yields `0.0` in both streams. -/
theorem runBacktest_spec (cfg : Config) (predict : List ℚ → ℚ)
    (features : List (List ℚ)) (labels : List ℚ)
    (hlen : features.length = labels.length) :
    ((runBacktest cfg predict features labels).1 =
      (features.zip labels).map
        (fun row => if predict row.1 > cfg.longThreshold then row.2 else 0)) ∧
    ((runBacktest cfg predict features labels).2 =
      (features.zip labels).map
        (fun row => if predict row.1 < cfg.shortThreshold
          then 1 / (1 + row.2) - 1 else 0)) ∧
    (runBacktest cfg predict features labels).1.length = features.length ∧
    (runBacktest cfg predict features labels).2.length = features.length ∧
    (∀ i : ℕ, i < features.length →
      cfg.shortThreshold < predict (features.getD i []) →
      predict (features.getD i []) < cfg.longThreshold →
      (runBacktest cfg predict features labels).1.getD i 1 = 0 ∧
      (runBacktest cfg predict features labels).2.getD i 1 = 0) := by
  have hzip : (features.zip labels).length = features.length := by
    rw [List.length_zip, hlen, min_self]
  have hgo := runBacktestGo_eq cfg predict (features.zip labels)
  refine ⟨?_, ?_, ?_, ?_, ?_⟩
  · rw [runBacktest, hgo]
  · rw [runBacktest, hgo]
  · rw [runBacktest, hgo]; simpa using hzip
  · rw [runBacktest, hgo]; simpa using hzip
  · intro i hi hshort hlong
    constructor
    · rw [runBacktest, hgo]
      simp only
      rw [getD_map_zip _ features labels i hi hlen]
      simp only [gt_iff_lt, if_neg (not_lt.mpr hlong.le)]
    · rw [runBacktest, hgo]
      simp only
      rw [getD_map_zip _ features labels i hi hlen]
      simp only [if_neg (not_lt.mpr hshort.le)]

/-- Concrete opaque model for witnesses: predict the first feature. -/
def wPred : List ℚ → ℚ := fun f => f.headD 0

theorem runBacktest_spec_witness :
    (runBacktest wCfg wPred [[1/200], [2]] [5, 7]).1 = [0, 7] ∧
    (runBacktest wCfg wPred [[1/200], [2]] [5, 7]).2 = [0, 0] ∧
    (runBacktest wCfg wPred [[1/200], [2]] [5, 7]).1.getD 0 1 = 0 ∧
    (runBacktest wCfg wPred [[1/200], [2]] [5, 7]).2.getD 0 1 = 0 := by
  have h := runBacktest_spec wCfg wPred [[1/200], [2]] [5, 7] rfl
  have h5 := h.2.2.2.2 0 (by norm_num) (by norm_num [wPred, wCfg])
    (by norm_num [wPred, wCfg])
  exact ⟨h.1.trans (by norm_num [wPred, wCfg]),
    h.2.1.trans (by norm_num [wPred, wCfg]), h5.1, h5.2⟩

/-! ### R² score (`getR2Score`) -/

/-- The summation loop of `getR2Score`: accumulate squared residuals against
the model's prediction and squared deviations from the partition's label
mean, over index-paired (features, label) rows. -/
def r2Sums (predict : List ℚ → ℚ) (meanObserved : ℚ) :
    List (List ℚ × ℚ) → ℚ × ℚ
  | [] => (0, 0)
  | row :: rows =>
    let rest := r2Sums predict meanObserved rows
    let residualDelta := row.2 - predict row.1
    let totalDelta := row.2 - meanObserved
    (residualDelta * residualDelta + rest.1, totalDelta * totalDelta + rest.2)

/-- `getR2Score`: `1 - residualSum/totalSum`, the final arithmetic in IEEE
classes (an empty or zero-variance partition divides by `0.0`). -/
def getR2Score (predict : List ℚ → ℚ) (features : List (List ℚ))
    (labels : List ℚ) : FloatVal :=
  let meanObserved := mean labels
  let sums := r2Sums predict meanObserved (features.zip labels)
  FloatVal.sub (.fin 1) (FloatVal.div (.fin sums.1) (.fin sums.2))

theorem r2Sums_fst_zero (predict : List ℚ → ℚ) (m : ℚ) :
    ∀ rows : List (List ℚ × ℚ), (∀ row ∈ rows, predict row.1 = row.2) →
      (r2Sums predict m rows).1 = 0 := by
  intro rows
  induction rows with
  | nil => intro _; rfl
  | cons row rows ih =>
    intro h
    have hhead : predict row.1 = row.2 := h row (by simp)
    have htail := ih (fun r hr => h r (by simp [hr]))
    simp [r2Sums, hhead, htail]

theorem r2Sums_fst_eq_snd (predict : List ℚ → ℚ) (m : ℚ) :
    ∀ rows : List (List ℚ × ℚ), (∀ row ∈ rows, predict row.1 = m) →
      (r2Sums predict m rows).1 = (r2Sums predict m rows).2 := by
  intro rows
  induction rows with
  | nil => intro _; rfl
  | cons row rows ih =>
    intro h
    have hhead : predict row.1 = m := h row (by simp)
    have htail := ih (fun r hr => h r (by simp [hr]))
    simp [r2Sums, hhead, htail]

/-- Claim C5: on an aligned partition the R² score is
`1 - residualSum/totalSum` with the total sum taken against that partition's
own label mean; when every prediction equals its label the score is `1.0`,
and when every prediction equals the partition's label mean the score is
`0.0` (both under non-zero label variance). -/
theorem getR2Score_spec (predict : List ℚ → ℚ) (features : List (List ℚ))
    (labels : List ℚ) (_hlen : features.length = labels.length) :
    ((r2Sums predict (mean labels) (features.zip labels)).2 ≠ 0 →
      getR2Score predict features labels =
        .fin (1 - (r2Sums predict (mean labels) (features.zip labels)).1 /
          (r2Sums predict (mean labels) (features.zip labels)).2)) ∧
    ((∀ row ∈ features.zip labels, predict row.1 = row.2) →
      (r2Sums predict (mean labels) (features.zip labels)).2 ≠ 0 →
      getR2Score predict features labels = .fin 1) ∧
    ((∀ f ∈ features, predict f = mean labels) →
      (r2Sums predict (mean labels) (features.zip labels)).2 ≠ 0 →
      getR2Score predict features labels = .fin 0) := by
  refine ⟨?_, ?_, ?_⟩
  · intro htss
    simp [getR2Score, FloatVal.div, FloatVal.sub, htss]
  · intro hperfect htss
    have hrss := r2Sums_fst_zero predict (mean labels) (features.zip labels) hperfect
    simp [getR2Score, FloatVal.div, FloatVal.sub, htss, hrss]
  · intro hmean htss
    have hrss := r2Sums_fst_eq_snd predict (mean labels) (features.zip labels)
      (fun row hrow => hmean row.1 (List.of_mem_zip hrow).1)
    simp [getR2Score, FloatVal.div, FloatVal.sub, htss, hrss, div_self htss]

/-- Concrete opaque model for the R² witness: predict the partition mean. -/
def wMeanPred : List ℚ → ℚ := fun _ => 3/2

theorem getR2Score_spec_witness :
    getR2Score wPred [[1], [2]] [1, 2] = .fin 1 ∧
    getR2Score wMeanPred [[1], [2]] [1, 2] = .fin 0 := by
  have h1 := getR2Score_spec wPred [[1], [2]] [1, 2] rfl
  have h2 := getR2Score_spec wMeanPred [[1], [2]] [1, 2] rfl
  refine ⟨h1.2.1 ?_ ?_, h2.2.2 ?_ ?_⟩
  · intro row hrow
    fin_cases hrow <;> norm_num [wPred]
  · norm_num [r2Sums, mean, wPred]
  · intro f hf
    fin_cases hf <;> norm_num [wMeanPred, mean]
  · norm_num [r2Sums, mean, wMeanPred]

/-- Claim C10: on an empty partition both sums are `0.0` and the R²
computation neither fails nor aborts: it returns the IEEE value of
`1 - 0/0`, i.e. NaN, as the score. -/
theorem getR2Score_empty (predict : List ℚ → ℚ) :
    r2Sums predict (mean []) ([] : List (List ℚ × ℚ)) = (0, 0) ∧
    getR2Score predict [] [] = FloatVal.nan := by
  exact ⟨rfl, rfl⟩

/-! ### Performance summary (`getSharpeRatio`, `analyzeReturns`) -/

/-- `weeksPerYear = 52`. -/
def weeksPerYear : ℚ := 52

/-- `getSharpeRatio`: NaN for fewer than 2 returns; otherwise
`sqrt(52) * (mean - riskFreeRate/52) / stdDev` with the division and the
multiplication carried out in IEEE classes and a final `math.IsInf` guard
mapping `±Inf` to NaN.  `sqrt52` stands for the double `math.Sqrt(weeksPerYear)`
and `stdDevFn` for `commons.StdDev`, both external. -/
def getSharpeRatio (cfg : Config) (sqrt52 : ℚ) (stdDevFn : List ℚ → ℚ)
    (weeklyReturns : List ℚ) : FloatVal :=
  if weeklyReturns.length < 2 then .nan
  else
    let meanReturn := mean weeklyReturns
    let stdDev := stdDevFn weeklyReturns
    let riskFreeRate := cfg.riskFreeRate / weeksPerYear
    let weeklySharpeRatio :=
      FloatVal.div (.fin (meanReturn - riskFreeRate)) (.fin stdDev)
    let sharpeRatio := FloatVal.mul (.fin sqrt52) weeklySharpeRatio
    if sharpeRatio.isInf then .nan else sharpeRatio

/-- Claim C3: the Sharpe ratio is
`sqrt(52) * (mean(returns) - riskFreeRate/52) / stdDev(returns)`; a series
with fewer than 2 returns, or one whose ratio comes out ±infinite (zero
standard deviation), yields NaN rather than a number or a crash (the
function is total). -/
theorem getSharpeRatio_spec (cfg : Config) (sqrt52 : ℚ)
    (stdDevFn : List ℚ → ℚ) (returns : List ℚ) :
    getSharpeRatio cfg sqrt52 stdDevFn returns =
      if returns.length < 2 then .nan
      else if stdDevFn returns = 0 then .nan
      else .fin (sqrt52 * (mean returns - cfg.riskFreeRate / weeksPerYear) /
        stdDevFn returns) := by
  rw [getSharpeRatio]
  by_cases hlen : returns.length < 2
  · rw [if_pos hlen, if_pos hlen]
  · rw [if_neg hlen, if_neg hlen]
    by_cases hsd : stdDevFn returns = 0
    · rw [if_pos hsd]
      rcases lt_trichotomy (mean returns - cfg.riskFreeRate / weeksPerYear) 0
        with hm | hm | hm
      · rcases lt_trichotomy sqrt52 0 with hs | hs | hs
        · simp [FloatVal.div, FloatVal.mul, FloatVal.isInf, hsd, hm.ne,
            not_lt.mpr hm.le, hs.ne, not_lt.mpr hs.le]
        · simp [FloatVal.div, FloatVal.mul, FloatVal.isInf, hsd, hm.ne,
            not_lt.mpr hm.le, hs]
        · simp [FloatVal.div, FloatVal.mul, FloatVal.isInf, hsd, hm.ne,
            not_lt.mpr hm.le, hs.ne', hs]
      · simp [FloatVal.div, FloatVal.mul, FloatVal.isInf, hsd, hm]
      · rcases lt_trichotomy sqrt52 0 with hs | hs | hs
        · simp [FloatVal.div, FloatVal.mul, FloatVal.isInf, hsd, hm.ne', hm,
            hs.ne, not_lt.mpr hs.le]
        · simp [FloatVal.div, FloatVal.mul, FloatVal.isInf, hsd, hm.ne', hm, hs]
        · simp [FloatVal.div, FloatVal.mul, FloatVal.isInf, hsd, hm.ne', hm,
            hs.ne', hs]
    · rw [if_neg hsd]
      simp only [FloatVal.div, if_neg hsd, FloatVal.mul, FloatVal.isInf,
        Bool.false_eq_true, if_false]
      rw [mul_div_assoc]

/-- `analyzeReturns`: the running total (simple sum, not compounded) paired
with the Sharpe ratio of the return stream. -/
def analyzeReturns (cfg : Config) (sqrt52 : ℚ) (stdDevFn : List ℚ → ℚ)
    (returns : List ℚ) : ℚ × FloatVal :=
  (returns.foldl (fun acc r => acc + r) 0,
   getSharpeRatio cfg sqrt52 stdDevFn returns)

/-- The `addReturns` closure of `getRegressionCells`: when the total return
is not exactly `0.0`, both cells carry formatted numbers
(`commons.FormatPercentage` and `fmt.Sprintf`, the opaque parameters
`fmtPct` and `fmtNum`); otherwise both cells are the placeholder `"-"`. -/
def addReturnsCells (cfg : Config) (sqrt52 : ℚ) (stdDevFn : List ℚ → ℚ)
    (fmtPct : ℚ → String) (fmtNum : FloatVal → String)
    (returns : List ℚ) : List String :=
  let res := analyzeReturns cfg sqrt52 stdDevFn returns
  if res.1 ≠ 0 then [fmtPct res.1, fmtNum res.2] else ["-", "-"]

/-- Claim C9: the total-return cell and the Sharpe-ratio cell of a report
row are both the placeholder `"-"` exactly when the simple sum of the
backtested return stream is `0.0` — regardless of the Sharpe value, even a
finite defined one — and both carry formatted numeric values otherwise. -/
theorem returnCells_spec (cfg : Config) (sqrt52 : ℚ) (stdDevFn : List ℚ → ℚ)
    (fmtPct : ℚ → String) (fmtNum : FloatVal → String) (returns : List ℚ) :
    ((analyzeReturns cfg sqrt52 stdDevFn returns).1 = returns.sum) ∧
    ((analyzeReturns cfg sqrt52 stdDevFn returns).1 = 0 →
      addReturnsCells cfg sqrt52 stdDevFn fmtPct fmtNum returns = ["-", "-"]) ∧
    ((analyzeReturns cfg sqrt52 stdDevFn returns).1 ≠ 0 →
      addReturnsCells cfg sqrt52 stdDevFn fmtPct fmtNum returns =
        [fmtPct (analyzeReturns cfg sqrt52 stdDevFn returns).1,
         fmtNum (analyzeReturns cfg sqrt52 stdDevFn returns).2]) := by
  refine ⟨?_, ?_, ?_⟩
  · rw [analyzeReturns]
    simp only
    rw [List.sum_eq_foldl]
  · intro hzero
    rw [addReturnsCells]
    simp only [hzero]
    simp
  · intro hnz
    rw [addReturnsCells, if_pos hnz]

/-- Concrete opaque standard deviation for witnesses. -/
def wStd : List ℚ → ℚ := fun _ => 1

/-- Concrete opaque percentage formatter for witnesses. -/
def wPct : ℚ → String := fun _ => "P"

/-- Concrete opaque number formatter for witnesses. -/
def wNum : FloatVal → String := fun _ => "N"

theorem returnCells_spec_witness :
    addReturnsCells wCfg 8 wStd wPct wNum [1, -1] = ["-", "-"] ∧
    getSharpeRatio wCfg 8 wStd [1, -1] = .fin 0 ∧
    addReturnsCells wCfg 8 wStd wPct wNum [1, 1] = ["P", "N"] := by
  have h1 := returnCells_spec wCfg 8 wStd wPct wNum [1, -1]
  have h2 := returnCells_spec wCfg 8 wStd wPct wNum [1, 1]
  refine ⟨h1.2.1 (by norm_num [analyzeReturns]), ?_, h2.2.2 (by norm_num [analyzeReturns])⟩
  norm_num [getSharpeRatio, mean, weeksPerYear, wCfg, wStd,
    FloatVal.div, FloatVal.mul, FloatVal.isInf]

end Featured
